import Mathlib

/-!
Verification of the pre/iter/post partitioning-and-scheduling subsystem of
this OpenMDAO branch.

The repository snapshot under verification ships the test suites
(`test_pre_post_iter.py`, `test_nlopt_driver.py`) and the `openmdao.math`
package docstring, while the partitioner, scheduler, driver and math
implementations themselves are not part of the snapshot.  Following the
specification, the missing parts are modelled here as executable Lean
definitions (each marked `Modelled from the spec:`), and the properties are
settled against those models together with the expected values recorded in
the shipped tests.
-/

/-- Modelled from the spec: the connection graph produced by the Connection
Graph Builder (§4.1).  Nodes are leaf components identified by `Nat` ids,
`edges` are the resolved directed connections (one edge `u → v` whenever any
output of `u` feeds an input of `v`), `dvs` are the components owning a
design variable and `resps` the components owning a response. -/
structure CompGraph where
  comps : List Nat
  edges : List (Nat × Nat)
  dvs : List Nat
  resps : List Nat

/-- Successors of a node: targets of the outgoing connections. -/
def succsOf (g : CompGraph) (u : Nat) : List Nat :=
  (g.edges.filter (fun e => e.1 == u)).map Prod.snd

/-- Modelled from the spec: one expansion step of the forward traversal of
the Reachability Analyzer (§4.2) — add every successor of the current set. -/
def rstep (g : CompGraph) (s : List Nat) : List Nat :=
  (s ++ s.flatMap (fun u => succsOf g u)).dedup

/-- Fuel bound for the traversal: number of distinct nodes that can ever be
collected (the start set and all edge targets). -/
def reachBound (g : CompGraph) (starts : List Nat) : Nat :=
  (starts.dedup ++ g.edges.map Prod.snd).dedup.length

/-- Modelled from the spec: the set of components reachable from `starts` by
a forward graph traversal (inclusive of the start set), computed by
saturating `rstep`. -/
def reachFrom (g : CompGraph) (starts : List Nat) : List Nat :=
  (rstep g)^[reachBound g starts + 1] starts.dedup

/-- A directed path in the connection graph: reflexive-transitive closure of
the edge relation.  This is the specification-level notion of "component `v`
lies downstream of `u`". -/
inductive ReachesI (g : CompGraph) : Nat → Nat → Prop
  | refl (u : Nat) : ReachesI g u u
  | tail {u v w : Nat} : ReachesI g u v → (v, w) ∈ g.edges → ReachesI g u w

theorem ReachesI.single {g : CompGraph} {u v : Nat} (h : (u, v) ∈ g.edges) :
    ReachesI g u v :=
  ReachesI.tail (ReachesI.refl u) h

theorem ReachesI.trans {g : CompGraph} {u v w : Nat}
    (h1 : ReachesI g u v) (h2 : ReachesI g v w) : ReachesI g u w := by
  induction h2 with
  | refl => exact h1
  | tail _ hedge ih => exact ReachesI.tail ih hedge

theorem mem_succsOf {g : CompGraph} {u v : Nat} :
    v ∈ succsOf g u ↔ (u, v) ∈ g.edges := by
  constructor
  · intro h
    rcases List.mem_map.1 h with ⟨e, he, hsnd⟩
    rcases List.mem_filter.1 he with ⟨hmem, hfst⟩
    have : e.1 = u := by simpa using hfst
    rcases e with ⟨a, b⟩
    simp only at hsnd this
    subst hsnd this
    exact hmem
  · intro h
    refine List.mem_map.2 ⟨(u, v), List.mem_filter.2 ⟨h, by simp⟩, rfl⟩

theorem subset_rstep {g : CompGraph} {s : List Nat} : s ⊆ rstep g s := by
  intro x hx
  simp only [rstep, List.mem_dedup, List.mem_append]
  exact Or.inl hx

theorem rstep_mono {g : CompGraph} {s t : List Nat} (h : s ⊆ t) :
    rstep g s ⊆ rstep g t := by
  intro x hx
  simp only [rstep, List.mem_dedup, List.mem_append, List.mem_flatMap] at hx ⊢
  rcases hx with hx | ⟨u, hu, hsucc⟩
  · exact Or.inl (h hx)
  · exact Or.inr ⟨u, h hu, hsucc⟩

theorem mem_rstep_of_edge {g : CompGraph} {s : List Nat} {v w : Nat}
    (hv : v ∈ s) (hw : (v, w) ∈ g.edges) : w ∈ rstep g s := by
  simp only [rstep, List.mem_dedup, List.mem_append, List.mem_flatMap]
  exact Or.inr ⟨v, hv, mem_succsOf.2 hw⟩

theorem nodup_rstep {g : CompGraph} {s : List Nat} : (rstep g s).Nodup :=
  List.nodup_dedup _

theorem subset_rstep_iterate {g : CompGraph} (n : Nat) (s : List Nat) :
    s ⊆ (rstep g)^[n] s := by
  induction n generalizing s with
  | zero => simp
  | succ n ih =>
    rw [Function.iterate_succ_apply]
    exact fun x hx => ih (rstep g s) (subset_rstep hx)

theorem rstep_iterate_subset_supp {g : CompGraph} {s supp : List Nat}
    (hsub : s ⊆ supp) (hsupp : ∀ e ∈ g.edges, e.2 ∈ supp) (n : Nat) :
    (rstep g)^[n] s ⊆ supp := by
  induction n with
  | zero => simpa using hsub
  | succ n ih =>
    rw [Function.iterate_succ_apply']
    intro x hx
    simp only [rstep, List.mem_dedup, List.mem_append, List.mem_flatMap] at hx
    rcases hx with hx | ⟨u, _, hsucc⟩
    · exact ih hx
    · exact hsupp _ (mem_succsOf.1 hsucc)

theorem nodup_rstep_iterate {g : CompGraph} {s : List Nat} (hs : s.Nodup)
    (n : Nat) : ((rstep g)^[n] s).Nodup := by
  cases n with
  | zero => simpa using hs
  | succ n => rw [Function.iterate_succ_apply']; exact nodup_rstep

theorem rstep_iterate_stab_or_grow {g : CompGraph} {s : List Nat}
    (hs : s.Nodup) (n : Nat) :
    (rstep g ((rstep g)^[n] s) ⊆ (rstep g)^[n] s) ∨
      s.length + n ≤ ((rstep g)^[n] s).length := by
  induction n with
  | zero => simp
  | succ n ih =>
    rcases ih with h | h
    · left
      rw [Function.iterate_succ_apply']
      exact rstep_mono h
    · by_cases hst : rstep g ((rstep g)^[n] s) ⊆ (rstep g)^[n] s
      · left
        rw [Function.iterate_succ_apply']
        exact rstep_mono hst
      · right
        rw [Function.iterate_succ_apply']
        rw [List.subset_def] at hst
        push_neg at hst
        rcases hst with ⟨x, hx, hxn⟩
        have hnodup : (x :: (rstep g)^[n] s).Nodup :=
          List.nodup_cons.2 ⟨hxn, nodup_rstep_iterate hs n⟩
        have hsub : (x :: (rstep g)^[n] s) ⊆ rstep g ((rstep g)^[n] s) := by
          intro y hy
          rcases List.mem_cons.1 hy with hy | hy
          · exact hy ▸ hx
          · exact subset_rstep hy
        have hlen := (List.subperm_of_subset hnodup hsub).length_le
        simp only [List.length_cons] at hlen
        omega

theorem reach_iterate_length_le {g : CompGraph} (starts : List Nat) (n : Nat) :
    ((rstep g)^[n] starts.dedup).length ≤ reachBound g starts := by
  have hsub : (rstep g)^[n] starts.dedup ⊆
      (starts.dedup ++ g.edges.map Prod.snd) :=
    rstep_iterate_subset_supp
      (fun x hx => List.mem_append.2 (Or.inl hx))
      (fun e he => List.mem_append.2 (Or.inr (List.mem_map.2 ⟨e, he, rfl⟩))) n
  have hsub' : (rstep g)^[n] starts.dedup ⊆
      (starts.dedup ++ g.edges.map Prod.snd).dedup :=
    fun x hx => List.mem_dedup.2 (hsub hx)
  exact (List.subperm_of_subset
    (nodup_rstep_iterate (List.nodup_dedup _) n) hsub').length_le

theorem rstep_reachFrom_subset {g : CompGraph} (starts : List Nat) :
    rstep g (reachFrom g starts) ⊆ reachFrom g starts := by
  unfold reachFrom
  rcases rstep_iterate_stab_or_grow (g := g)
      (List.nodup_dedup starts) (reachBound g starts + 1) with h | h
  · exact h
  · exfalso
    have := reach_iterate_length_le (g := g) starts (reachBound g starts + 1)
    omega

theorem reach_iterate_sound {g : CompGraph} {starts : List Nat} (n : Nat) :
    ∀ v ∈ (rstep g)^[n] starts.dedup, ∃ u ∈ starts, ReachesI g u v := by
  induction n with
  | zero =>
    intro v hv
    exact ⟨v, List.mem_dedup.1 (by simpa using hv), ReachesI.refl v⟩
  | succ n ih =>
    rw [Function.iterate_succ_apply']
    intro v hv
    simp only [rstep, List.mem_dedup, List.mem_append, List.mem_flatMap] at hv
    rcases hv with hv | ⟨u, hu, hsucc⟩
    · exact ih v hv
    · rcases ih u hu with ⟨w, hw, hr⟩
      exact ⟨w, hw, ReachesI.tail hr (mem_succsOf.1 hsucc)⟩

/-- The saturated traversal computes exactly the path-reachable components:
`v` is collected iff some start node has a directed path to `v`. -/
theorem mem_reachFrom {g : CompGraph} {starts : List Nat} {v : Nat} :
    v ∈ reachFrom g starts ↔ ∃ u ∈ starts, ReachesI g u v := by
  constructor
  · exact fun h => reach_iterate_sound _ v h
  · rintro ⟨u, hu, hr⟩
    induction hr with
    | refl => exact subset_rstep_iterate _ _ (List.mem_dedup.2 hu)
    | tail _ hedge ih =>
      exact rstep_reachFrom_subset starts (mem_rstep_of_edge ih hedge)

/-- The connection graph with every edge reversed, used for the backward
traversal of the Reachability Analyzer (§4.2). -/
def revGraph (g : CompGraph) : CompGraph :=
  { comps := g.comps, edges := g.edges.map (fun e => (e.2, e.1)),
    dvs := g.dvs, resps := g.resps }

theorem mem_edges_revGraph {g : CompGraph} {u v : Nat} :
    (u, v) ∈ (revGraph g).edges ↔ (v, u) ∈ g.edges := by
  constructor
  · intro h
    rcases List.mem_map.1 h with ⟨⟨a, b⟩, he, heq⟩
    simp only [Prod.mk.injEq] at heq
    rcases heq with ⟨hb, ha⟩
    subst hb; subst ha
    exact he
  · intro h
    exact List.mem_map.2 ⟨(v, u), h, rfl⟩

theorem reachesI_revGraph {g : CompGraph} {u v : Nat} :
    ReachesI (revGraph g) u v ↔ ReachesI g v u := by
  constructor
  · intro h
    induction h with
    | refl => exact ReachesI.refl _
    | tail _ hedge ih =>
      exact ReachesI.trans (ReachesI.single (mem_edges_revGraph.1 hedge)) ih
  · intro h
    induction h with
    | refl => exact ReachesI.refl _
    | tail _ hedge ih =>
      exact ReachesI.trans (ReachesI.single (mem_edges_revGraph.2 hedge)) ih

/-- Modelled from the spec: `D` — the set of components reachable by a
forward traversal starting at every design-variable owner, inclusive (§4.2). -/
def dSet (g : CompGraph) : List Nat := reachFrom g g.dvs

/-- Modelled from the spec: `Need` — the set of components reachable by a
backward traversal starting at every response owner, inclusive (§4.2). -/
def needSet (g : CompGraph) : List Nat := reachFrom (revGraph g) g.resps

/-- Modelled from the spec: `ITER0 = D ∩ Need` (§4.2). -/
def iter0Set (g : CompGraph) : List Nat :=
  (dSet g).filter (fun c => decide (c ∈ needSet g))

/-- Modelled from the spec: §4.3 — two nodes lie in the same strongly
connected component iff each reaches the other. -/
def sameSCC (g : CompGraph) (a b : Nat) : Bool :=
  decide (b ∈ reachFrom g [a]) && decide (a ∈ reachFrom g [b])

/-- Modelled from the spec: §4.3 — membership in `ITER`: any SCC containing
a node of `ITER0` is merged entirely into `ITER` (cycle-closure rule). -/
def inIter (g : CompGraph) (c : Nat) : Bool :=
  (iter0Set g).any (fun c0 => sameSCC g c c0)

/-- Modelled from the spec: §4.4 — `PRE = { c : c ∉ D and c ∉ ITER }`. -/
def preSet (g : CompGraph) : List Nat :=
  g.comps.filter (fun c => !decide (c ∈ dSet g) && !inIter g c)

/-- Modelled from the spec: §4.3/§4.4 — `ITER` as a component list. -/
def iterSet (g : CompGraph) : List Nat :=
  g.comps.filter (fun c => inIter g c)

/-- Modelled from the spec: §4.4 — `POST = all components − PRE − ITER`. -/
def postSet (g : CompGraph) : List Nat :=
  g.comps.filter (fun c => !decide (c ∈ preSet g) && !inIter g c)

/-- The three execution phases of the partition (§3). -/
inductive Phase where
  | PRE
  | ITER
  | POST
deriving DecidableEq, Repr

/-- Modelled from the spec: the partition as a total function
Component → {PRE, ITER, POST} (§3, §4.4). -/
def phaseOf (g : CompGraph) (c : Nat) : Phase :=
  if inIter g c then .ITER else if decide (c ∈ dSet g) then .POST else .PRE

theorem mem_dSet {g : CompGraph} {c : Nat} :
    c ∈ dSet g ↔ ∃ d ∈ g.dvs, ReachesI g d c := mem_reachFrom

theorem mem_needSet {g : CompGraph} {c : Nat} :
    c ∈ needSet g ↔ ∃ r ∈ g.resps, ReachesI g c r := by
  unfold needSet
  rw [mem_reachFrom]
  constructor
  · rintro ⟨r, hr, hp⟩
    exact ⟨r, hr, reachesI_revGraph.1 hp⟩
  · rintro ⟨r, hr, hp⟩
    exact ⟨r, hr, reachesI_revGraph.2 hp⟩

theorem mem_iter0Set {g : CompGraph} {c : Nat} :
    c ∈ iter0Set g ↔ c ∈ dSet g ∧ c ∈ needSet g := by
  simp [iter0Set, List.mem_filter]

theorem dvs_subset_dSet {g : CompGraph} {d : Nat} (hd : d ∈ g.dvs) :
    d ∈ dSet g :=
  mem_dSet.2 ⟨d, hd, ReachesI.refl d⟩

theorem dSet_mem_of_edge {g : CompGraph} {u v : Nat} (hu : u ∈ dSet g)
    (he : (u, v) ∈ g.edges) : v ∈ dSet g := by
  rcases mem_dSet.1 hu with ⟨d, hd, hp⟩
  exact mem_dSet.2 ⟨d, hd, ReachesI.tail hp he⟩

theorem needSet_mem_of_edge {g : CompGraph} {u v : Nat} (hv : v ∈ needSet g)
    (he : (u, v) ∈ g.edges) : u ∈ needSet g := by
  rcases mem_needSet.1 hv with ⟨r, hr, hp⟩
  exact mem_needSet.2 ⟨r, hr, ReachesI.trans (ReachesI.single he) hp⟩

theorem inIter_iff {g : CompGraph} {c : Nat} :
    inIter g c = true ↔
      ∃ c0 ∈ iter0Set g, ReachesI g c c0 ∧ ReachesI g c0 c := by
  unfold inIter sameSCC
  rw [List.any_eq_true]
  constructor
  · rintro ⟨c0, h0, hb⟩
    rcases Bool.and_eq_true_iff.1 hb with ⟨h1, h2⟩
    rcases mem_reachFrom.1 (of_decide_eq_true h1) with ⟨u, hu, hp1⟩
    rcases mem_reachFrom.1 (of_decide_eq_true h2) with ⟨u2, hu2, hp2⟩
    simp only [List.mem_singleton] at hu hu2
    exact ⟨c0, h0, hu ▸ hp1, hu2 ▸ hp2⟩
  · rintro ⟨c0, h0, hp1, hp2⟩
    refine ⟨c0, h0, Bool.and_eq_true_iff.2 ⟨?_, ?_⟩⟩
    · exact decide_eq_true (mem_reachFrom.2 ⟨c, List.mem_singleton_self c, hp1⟩)
    · exact decide_eq_true (mem_reachFrom.2 ⟨c0, List.mem_singleton_self c0, hp2⟩)

theorem inIter_of_iter0 {g : CompGraph} {c : Nat} (h : c ∈ iter0Set g) :
    inIter g c = true :=
  inIter_iff.2 ⟨c, h, ReachesI.refl c, ReachesI.refl c⟩

theorem inIter_of_d_need {g : CompGraph} {c : Nat} (hd : c ∈ dSet g)
    (hn : c ∈ needSet g) : inIter g c = true :=
  inIter_of_iter0 (mem_iter0Set.2 ⟨hd, hn⟩)

theorem dSet_of_inIter {g : CompGraph} {c : Nat} (h : inIter g c = true) :
    c ∈ dSet g := by
  rcases inIter_iff.1 h with ⟨c0, h0, _, hc0c⟩
  rcases mem_dSet.1 (mem_iter0Set.1 h0).1 with ⟨d, hd, hp⟩
  exact mem_dSet.2 ⟨d, hd, ReachesI.trans hp hc0c⟩

theorem needSet_of_inIter {g : CompGraph} {c : Nat} (h : inIter g c = true) :
    c ∈ needSet g := by
  rcases inIter_iff.1 h with ⟨c0, h0, hcc0, _⟩
  rcases mem_needSet.1 (mem_iter0Set.1 h0).2 with ⟨r, hr, hp⟩
  exact mem_needSet.2 ⟨r, hr, ReachesI.trans hcc0 hp⟩

theorem phaseOf_eq_PRE {g : CompGraph} {c : Nat} :
    phaseOf g c = Phase.PRE ↔ inIter g c = false ∧ c ∉ dSet g := by
  unfold phaseOf
  split_ifs with h1 h2 <;> simp_all

theorem phaseOf_eq_ITER {g : CompGraph} {c : Nat} :
    phaseOf g c = Phase.ITER ↔ inIter g c = true := by
  unfold phaseOf
  split_ifs with h1 h2 <;> simp_all

theorem phaseOf_eq_POST {g : CompGraph} {c : Nat} :
    phaseOf g c = Phase.POST ↔ inIter g c = false ∧ c ∈ dSet g := by
  unfold phaseOf
  split_ifs with h1 h2 <;> simp_all

theorem mem_preSet {g : CompGraph} {c : Nat} :
    c ∈ preSet g ↔ c ∈ g.comps ∧ phaseOf g c = Phase.PRE := by
  simp [preSet, List.mem_filter, phaseOf_eq_PRE, and_assoc, and_comm]

theorem mem_iterSet {g : CompGraph} {c : Nat} :
    c ∈ iterSet g ↔ c ∈ g.comps ∧ phaseOf g c = Phase.ITER := by
  simp [iterSet, List.mem_filter, phaseOf_eq_ITER]

theorem mem_postSet {g : CompGraph} {c : Nat} :
    c ∈ postSet g ↔ c ∈ g.comps ∧ phaseOf g c = Phase.POST := by
  simp only [postSet, List.mem_filter, phaseOf_eq_POST, Bool.and_eq_true,
    Bool.not_eq_true', decide_eq_false_iff_not, mem_preSet, phaseOf_eq_PRE,
    Bool.not_eq_true]
  constructor
  · rintro ⟨hc, hnp, hni⟩
    refine ⟨hc, hni, ?_⟩
    by_contra hd
    exact hnp ⟨hc, hni, hd⟩
  · rintro ⟨hc, hni, hd⟩
    exact ⟨hc, fun h => h.2.2 hd, hni⟩

/-- A design-variable owner is never classified PRE (it lies in `D`). -/
theorem phaseOf_PRE_not_dv {g : CompGraph} {c : Nat}
    (h : phaseOf g c = Phase.PRE) : c ∉ g.dvs :=
  fun hc => (phaseOf_eq_PRE.1 h).2 (dvs_subset_dSet hc)

/-- Partition validation invariant (§4.4): an edge into a PRE component can
only come from a PRE component. -/
theorem phaseOf_PRE_of_edge {g : CompGraph} {p c : Nat}
    (he : (p, c) ∈ g.edges) (hc : phaseOf g c = Phase.PRE) :
    phaseOf g p = Phase.PRE := by
  rcases phaseOf_eq_PRE.1 hc with ⟨hci, hcd⟩
  have hpd : p ∉ dSet g := fun hp => hcd (dSet_mem_of_edge hp he)
  have hpi : inIter g p = false := by
    by_contra h
    exact hpd (dSet_of_inIter (Bool.of_not_eq_false h))
  exact phaseOf_eq_PRE.2 ⟨hpi, hpd⟩

/-- Partition validation invariant (§4.4): an edge into an ITER component
never comes from a POST component. -/
theorem phaseOf_ITER_of_edge {g : CompGraph} {p c : Nat}
    (he : (p, c) ∈ g.edges) (hc : phaseOf g c = Phase.ITER) :
    phaseOf g p = Phase.PRE ∨ phaseOf g p = Phase.ITER := by
  by_cases hpi : inIter g p = true
  · exact Or.inr (phaseOf_eq_ITER.2 hpi)
  · left
    have hpib : inIter g p = false := Bool.eq_false_iff.2 hpi
    refine phaseOf_eq_PRE.2 ⟨hpib, fun hpd => ?_⟩
    have hcn : c ∈ needSet g := needSet_of_inIter (phaseOf_eq_ITER.1 hc)
    have hpn : p ∈ needSet g := needSet_mem_of_edge hcn he
    exact hpi (inIter_of_d_need hpd hpn)

theorem ReachesI.target_cases {g : CompGraph} {u c : Nat}
    (h : ReachesI g u c) : c = u ∨ ∃ e ∈ g.edges, e.2 = c := by
  cases h with
  | refl => exact Or.inl rfl
  | tail _ hedge => exact Or.inr ⟨_, hedge, rfl⟩

/-- The reference model of `test_pre_post_iter.py::setup_problem` (without
the optional IndepVarComp): components 0 = pre1, 1 = pre2, 2 = iter1,
3 = iter2, 4 = iter4, 5 = iter3, 6 = post1, 7 = post2; the edges are the
`model.connect` calls; the design variable is `iter1.x3` (owned by iter1),
the responses are the constraint `iter2.y` and the objective `iter3.y`. -/
def refGraph : CompGraph :=
  { comps := [0, 1, 2, 3, 4, 5, 6, 7],
    edges := [(0, 2), (0, 7), (1, 2), (2, 3), (2, 4), (3, 7), (5, 6), (4, 5)],
    dvs := [2],
    resps := [3, 5] }

/-- C5: for every well-formed graph, `ITER0 = D ∩ Need` — a component is in
`ITER0` iff it is forward-reachable from some design-variable owner
(inclusive) and backward-reachable from some response owner (inclusive) —
and every component lying on any directed path from a design variable to a
response is placed in `ITER`. -/
theorem c5_iter0_inter_and_completeness (g : CompGraph)
    (hE : ∀ e ∈ g.edges, e.2 ∈ g.comps)
    (hdv : ∀ d ∈ g.dvs, d ∈ g.comps) (c : Nat) :
    (c ∈ iter0Set g ↔
      (∃ d ∈ g.dvs, ReachesI g d c) ∧ (∃ r ∈ g.resps, ReachesI g c r)) ∧
    (∀ d ∈ g.dvs, ∀ r ∈ g.resps, ReachesI g d c → ReachesI g c r →
      c ∈ iterSet g) := by
  constructor
  · rw [mem_iter0Set, mem_dSet, mem_needSet]
  · intro d hd r hr hdc hcr
    have hcc : c ∈ g.comps := by
      rcases hdc.target_cases with h | ⟨e, he, hsnd⟩
      · exact h ▸ hdv d hd
      · exact hsnd ▸ hE e he
    refine mem_iterSet.2 ⟨hcc, phaseOf_eq_ITER.2 ?_⟩
    exact inIter_of_d_need (mem_dSet.2 ⟨d, hd, hdc⟩) (mem_needSet.2 ⟨r, hr, hcr⟩)

/-- Witness for C5 on the reference model: iter4 (id 4) lies on the path
iter1 → iter4 → iter3 from the design variable to the objective and is
classified ITER. -/
theorem c5_witness : 4 ∈ iterSet refGraph :=
  (c5_iter0_inter_and_completeness refGraph (by decide) (by decide) 4).2
    2 (by decide) 5 (by decide)
    (ReachesI.single (by decide))
    (ReachesI.single (by decide))

/-- C6: for every graph the computed partition is a total, pairwise-disjoint
three-way classification of the component set, and no PRE component is the
endpoint of a directed path from any design-variable owner. -/
theorem c6_partition_total_disjoint_noleak (g : CompGraph) (c : Nat)
    (hc : c ∈ g.comps) :
    ((c ∈ preSet g ∨ c ∈ iterSet g ∨ c ∈ postSet g) ∧
      ¬(c ∈ preSet g ∧ c ∈ iterSet g) ∧
      ¬(c ∈ preSet g ∧ c ∈ postSet g) ∧
      ¬(c ∈ iterSet g ∧ c ∈ postSet g)) ∧
    (∀ d ∈ g.dvs, ReachesI g d c → c ∉ preSet g) := by
  refine ⟨⟨?_, ?_, ?_, ?_⟩, ?_⟩
  · rcases hph : phaseOf g c with _ | _ | _
    · exact Or.inl (mem_preSet.2 ⟨hc, hph⟩)
    · exact Or.inr (Or.inl (mem_iterSet.2 ⟨hc, hph⟩))
    · exact Or.inr (Or.inr (mem_postSet.2 ⟨hc, hph⟩))
  · rintro ⟨h1, h2⟩
    rw [mem_preSet] at h1
    rw [mem_iterSet] at h2
    rw [h1.2] at h2
    exact absurd h2.2 (by simp)
  · rintro ⟨h1, h2⟩
    rw [mem_preSet] at h1
    rw [mem_postSet] at h2
    rw [h1.2] at h2
    exact absurd h2.2 (by simp)
  · rintro ⟨h1, h2⟩
    rw [mem_iterSet] at h1
    rw [mem_postSet] at h2
    rw [h1.2] at h2
    exact absurd h2.2 (by simp)
  · intro d hd hpath hpre
    have hcd : c ∈ dSet g := mem_dSet.2 ⟨d, hd, hpath⟩
    exact (phaseOf_eq_PRE.1 (mem_preSet.1 hpre).2).2 hcd

/-- Witness for C6 on the reference model: iter2 (id 3) falls in exactly one
phase, and — being reachable from the design variable — not in PRE. -/
theorem c6_witness :
    (3 ∈ preSet refGraph ∨ 3 ∈ iterSet refGraph ∨ 3 ∈ postSet refGraph) ∧
      3 ∉ preSet refGraph := by
  have h := c6_partition_total_disjoint_noleak refGraph 3 (by decide)
  exact ⟨h.1.1, h.2 2 (by decide) (ReachesI.single (by decide))⟩

/-- Point update of an execution state (the variable store, one value per
component). -/
def updState {α : Type} (s : Nat → α) (c : Nat) (v : α) : Nat → α :=
  fun d => if d = c then v else s d

/-- Modelled from the spec: one scheduler pass (§4.5) — walk the global
topological order and evaluate every component selected by the phase gate
`S`, feeding each component the current design value `x` and the current
state. -/
def runList {α : Type} (f : Nat → α → (Nat → α) → α) (S : Nat → Bool)
    (x : α) : List Nat → (Nat → α) → Nat → α
  | [], s => s
  | c :: rest, s =>
      runList f S x rest (if S c then updState s c (f c x s) else s)

theorem runList_nonsel {α : Type} (f : Nat → α → (Nat → α) → α)
    (S : Nat → Bool) (x : α) :
    ∀ (todo : List Nat) (s : Nat → α) (p : Nat), S p = false →
      runList f S x todo s p = s p := by
  intro todo
  induction todo with
  | nil => intro s p _; rfl
  | cons c rest ih =>
    intro s p hp
    show runList f S x rest _ p = s p
    rw [ih _ p hp]
    by_cases hc : S c = true
    · rw [if_pos hc]
      unfold updState
      rw [if_neg]
      intro hpc
      rw [hpc, hc] at hp
      simp at hp
    · rw [if_neg hc]

theorem runList_notmem {α : Type} (f : Nat → α → (Nat → α) → α)
    (S : Nat → Bool) (x : α) :
    ∀ (todo : List Nat) (s : Nat → α) (p : Nat), p ∉ todo →
      runList f S x todo s p = s p := by
  intro todo
  induction todo with
  | nil => intro s p _; rfl
  | cons c rest ih =>
    intro s p hp
    show runList f S x rest _ p = s p
    rw [ih _ p (fun h => hp (List.mem_cons_of_mem c h))]
    by_cases hc : S c = true
    · rw [if_pos hc]
      unfold updState
      rw [if_neg (fun (hpc : p = c) => hp (hpc ▸ List.mem_cons_self c rest))]
    · rw [if_neg hc]

theorem runList_append {α : Type} (f : Nat → α → (Nat → α) → α)
    (S : Nat → Bool) (x : α) :
    ∀ (a b : List Nat) (s : Nat → α),
      runList f S x (a ++ b) s = runList f S x b (runList f S x a s) := by
  intro a
  induction a with
  | nil => intro b s; rfl
  | cons c rest ih => intro b s; exact ih b _

/-- The reference semantics of a design value `y`: run every component once,
in the global topological order, starting from the all-default state. -/
def denot {α : Type} [Inhabited α] (f : Nat → α → (Nat → α) → α)
    (order : List Nat) (y : α) : Nat → α :=
  runList f (fun _ => true) y order (fun _ => default)

/-- `order` is a topological order for `g`: no edge points backwards and no
edge is a self loop. -/
def TopoOrder (g : CompGraph) (order : List Nat) : Prop :=
  order.Pairwise (fun u v => (v, u) ∉ g.edges) ∧ ∀ u ∈ order, (u, u) ∉ g.edges

theorem topo_pred_mem_left {g : CompGraph} {order l1 l2 : List Nat} {c p : Nat}
    (ht : TopoOrder g order) (hsplit : order = l1 ++ c :: l2)
    (hp : p ∈ order) (he : (p, c) ∈ g.edges) : p ∈ l1 := by
  subst hsplit
  rcases List.mem_append.1 hp with h | h
  · exact h
  · exfalso
    rcases List.mem_cons.1 h with h | h
    · exact ht.2 c (List.mem_append.2 (Or.inr (List.mem_cons_self c l2)))
        (h ▸ he)
    · have hpair := (List.pairwise_append.1 ht.1).2.1
      exact (List.pairwise_cons.1 hpair).1 p h he

theorem denot_fixpoint {α : Type} [Inhabited α] {g : CompGraph}
    {f : Nat → α → (Nat → α) → α} {order : List Nat} {y : α}
    (ht : TopoOrder g order) (hnd : order.Nodup)
    (hE : ∀ e ∈ g.edges, e.1 ∈ order)
    (hdep : ∀ c x s s', (∀ p, (p, c) ∈ g.edges → s p = s' p) →
      f c x s = f c x s')
    {l1 : List Nat} {c : Nat} {l2 : List Nat}
    (hsplit : order = l1 ++ c :: l2) :
    denot f order y c = f c y (denot f order y) := by
  have hnd' := hnd
  rw [hsplit, List.nodup_append] at hnd'
  have hcl2 : c ∉ l2 := (List.nodup_cons.1 hnd'.2.1).1
  have hdisj : ∀ p ∈ l1, p ∉ c :: l2 := fun p hp hmem => hnd'.2.2 hp hmem
  have key : denot f order y =
      runList f (fun _ => true) y (c :: l2)
        (runList f (fun _ => true) y l1 (fun _ => default)) := by
    rw [denot, hsplit, runList_append]
  set sMid := runList f (fun _ => true) y l1 (fun _ => default) with hsMid
  have step1 : denot f order y c = f c y sMid := by
    rw [key]
    show runList f (fun _ => true) y l2 _ c = _
    rw [runList_notmem _ _ _ _ _ c hcl2, if_pos rfl]
    unfold updState
    rw [if_pos rfl]
  have hagree : ∀ p, (p, c) ∈ g.edges → sMid p = denot f order y p := by
    intro p hpe
    have hpl1 : p ∈ l1 :=
      topo_pred_mem_left ht hsplit (hsplit ▸ hE (p, c) hpe) hpe
    rw [key]
    show _ = runList f (fun _ => true) y l2 _ p
    rw [runList_notmem _ _ _ _ _ p (fun h => hdisj p hpl1 (List.mem_cons_of_mem c h)),
      if_pos rfl]
    unfold updState
    rw [if_neg (fun (hpc : p = c) => hdisj p hpl1 (hpc ▸ List.mem_cons_self c l2))]
  rw [step1]
  exact hdep c y sMid (denot f order y) hagree

theorem runList_phase_agree {α : Type} [Inhabited α] {g : CompGraph}
    {f : Nat → α → (Nat → α) → α} {order : List Nat}
    (ht : TopoOrder g order) (hnd : order.Nodup)
    (hE : ∀ e ∈ g.edges, e.1 ∈ order)
    (hdep : ∀ c x s s', (∀ p, (p, c) ∈ g.edges → s p = s' p) →
      f c x s = f c x s')
    (S : Nat → Bool) (x y : α)
    (hxy : ∀ c, S c = true → ∀ s, f c x s = f c y s)
    (Fixed : Nat → Prop)
    (hFixNotS : ∀ p, Fixed p → S p = false)
    (hpredSF : ∀ c, S c = true → c ∈ order → ∀ p, (p, c) ∈ g.edges →
      S p = true ∨ Fixed p) :
    ∀ (todo processed : List Nat) (s : Nat → α),
      order = processed ++ todo →
      (∀ p, S p = true → p ∈ processed → s p = denot f order y p) →
      (∀ p, Fixed p → s p = denot f order y p) →
      ∀ p, S p = true → p ∈ order → runList f S x todo s p = denot f order y p := by
  intro todo
  induction todo with
  | nil =>
    intro processed s horder h1 _ p hSp hpOrd
    exact h1 p hSp (by rw [horder, List.append_nil] at hpOrd; exact hpOrd)
  | cons c rest ih =>
    intro processed s horder h1 h2 p hSp hpOrd
    have horder' : order = (processed ++ [c]) ++ rest := by
      rw [horder, List.append_assoc, List.singleton_append]
    have hcOrd : c ∈ order := by
      rw [horder]
      exact List.mem_append.2 (Or.inr (List.mem_cons_self c rest))
    have hcNotProc : c ∉ processed := by
      intro hcp
      have := hnd
      rw [horder, List.nodup_append] at this
      exact this.2.2 hcp (List.mem_cons_self c rest)
    have hupd : ∀ s1 : Nat → α,
        (∀ q, S q = true → q ∈ processed ++ [c] → s1 q = denot f order y q) →
        (∀ q, Fixed q → s1 q = denot f order y q) →
        runList f S x rest s1 p = denot f order y p := by
      intro s1 h1' h2'
      exact ih (processed ++ [c]) s1 horder' h1' h2' p hSp hpOrd
    show runList f S x rest (if S c then updState s c (f c x s) else s) p = _
    by_cases hSc : S c = true
    · rw [if_pos hSc]
      have hval : f c x s = denot f order y c := by
        have hstep1 : f c x s = f c y s := hxy c hSc s
        have hstep2 : f c y s = f c y (denot f order y) := by
          apply hdep
          intro q hqe
          have hqOrd : q ∈ order := hE (q, c) hqe
          have hqProc : q ∈ processed :=
            topo_pred_mem_left ht horder hqOrd hqe
          rcases hpredSF c hSc hcOrd q hqe with hq | hq
          · exact h1 q hq hqProc
          · exact h2 q hq
        have hfix : denot f order y c = f c y (denot f order y) :=
          denot_fixpoint ht hnd hE hdep horder
        rw [hstep1, hstep2, ← hfix]
      refine hupd _ ?_ ?_
      · intro q hSq hq
        rcases List.mem_append.1 hq with hq | hq
        · have hqc : q ≠ c := fun h => hcNotProc (h ▸ hq)
          unfold updState
          rw [if_neg hqc]
          exact h1 q hSq hq
        · have hqc : q = c := List.mem_singleton.1 hq
          subst hqc
          unfold updState
          rw [if_pos rfl]
          exact hval
      · intro q hq
        have hqc : q ≠ c := by
          intro h
          rw [h] at hq
          rw [hFixNotS c hq] at hSc
          simp at hSc
        unfold updState
        rw [if_neg hqc]
        exact h2 q hq
    · rw [if_neg hSc]
      refine hupd s ?_ h2
      intro q hSq hq
      rcases List.mem_append.1 hq with hq | hq
      · exact h1 q hSq hq
      · have hqc : q = c := List.mem_singleton.1 hq
        rw [hqc] at hSq
        exact absurd hSq hSc

/-- The phase gate: selects the components the partition assigns to `ph`. -/
def phaseGate (g : CompGraph) (ph : Phase) : Nat → Bool :=
  fun c => decide (phaseOf g c = ph)

/-- Modelled from the spec: the `enablePartitioning=false` baseline (§6) —
the scheduler degrades to a single phase equal to the full component set,
run once per design point of the trajectory. -/
def baselineRun {α : Type} (f : Nat → α → (Nat → α) → α) (order : List Nat)
    (traj : List α) (s0 : Nat → α) : Nat → α :=
  traj.foldl (fun s x => runList f (fun _ => true) x order s) s0

/-- Modelled from the spec: partitioned execution (§4.5) — `RUN_PRE` once,
one `RUN_ITER` pass per design point `x0, rest…`, then `RUN_POST` once using
the latest ITER outputs and the cached PRE outputs. -/
def partitionedRun {α : Type} (f : Nat → α → (Nat → α) → α) (g : CompGraph)
    (order : List Nat) (x0 : α) (rest : List α) (s0 : Nat → α) : Nat → α :=
  let sPre := runList f (phaseGate g .PRE) x0 order s0
  let sIter := (x0 :: rest).foldl
    (fun s x => runList f (phaseGate g .ITER) x order s) sPre
  runList f (phaseGate g .POST)
    ((x0 :: rest).getLast (List.cons_ne_nil x0 rest)) order sIter

theorem foldl_eq_last {α β : Type} {xs : List α} (h : xs ≠ [])
    (f : β → α → β) (b : β) :
    xs.foldl f b = f (xs.dropLast.foldl f b) (xs.getLast h) := by
  conv_lhs => rw [← List.dropLast_append_getLast h]
  rw [List.foldl_append]
  rfl

theorem foldl_runList_nonsel {α : Type} (f : Nat → α → (Nat → α) → α)
    (S : Nat → Bool) (order : List Nat) :
    ∀ (traj : List α) (s : Nat → α) (p : Nat), S p = false →
      traj.foldl (fun s x => runList f S x order s) s p = s p := by
  intro traj
  induction traj with
  | nil => intro s p _; rfl
  | cons x rest ih =>
    intro s p hp
    show rest.foldl _ (runList f S x order s) p = s p
    rw [ih _ p hp, runList_nonsel _ _ _ _ _ p hp]

/-- C1: refinement equivalence (§8).  For every model — a connection graph
listed in topological order whose component functions read only their graph
predecessors (`hdep`) and read the design value only at design-variable
owners (`hdv`) — and every design-variable trajectory `x0 :: rest`,
partitioned execution (`RUN_PRE` once, one `RUN_ITER` pass per design point,
`RUN_POST` once at the end) yields exactly the same final value on every
component as the `enablePartitioning=false` baseline that re-runs the full
component set at every design point.  The equality holds for all components
and all trajectories, so in this exact-arithmetic model the total
derivatives of the final outputs with respect to the trajectory coincide as
well. -/
theorem c1_partitioned_equals_baseline {α : Type} [Inhabited α]
    (g : CompGraph) (f : Nat → α → (Nat → α) → α)
    (ht : TopoOrder g g.comps) (hnd : g.comps.Nodup)
    (hE : ∀ e ∈ g.edges, e.1 ∈ g.comps)
    (hdep : ∀ c x s s', (∀ p, (p, c) ∈ g.edges → s p = s' p) →
      f c x s = f c x s')
    (hdv : ∀ c, c ∉ g.dvs → ∀ x y s, f c x s = f c y s)
    (x0 : α) (rest : List α) (s0 : Nat → α) (c : Nat) (hc : c ∈ g.comps) :
    partitionedRun f g g.comps x0 rest s0 c =
      baselineRun f g.comps (x0 :: rest) s0 c := by
  set xl := (x0 :: rest).getLast (List.cons_ne_nil x0 rest) with hxl
  have hbase : baselineRun f g.comps (x0 :: rest) s0 c =
      denot f g.comps xl c := by
    rw [baselineRun, foldl_eq_last (List.cons_ne_nil x0 rest)]
    exact runList_phase_agree ht hnd hE hdep (fun _ => true) xl xl
      (fun _ _ _ => rfl) (fun _ => False) (fun p hp => absurd hp not_false)
      (fun _ _ _ _ _ => Or.inl rfl) g.comps [] _ rfl
      (fun p _ hp => absurd hp (List.not_mem_nil p))
      (fun p hp => absurd hp not_false) c rfl hc
  have hPreGate : ∀ p, phaseOf g p = Phase.PRE → phaseGate g .ITER p = false := by
    intro p hp
    simp [phaseGate, hp]
  have hPrePost : ∀ p, phaseOf g p = Phase.PRE → phaseGate g .POST p = false := by
    intro p hp
    simp [phaseGate, hp]
  have hIterPost : ∀ p, phaseOf g p = Phase.ITER → phaseGate g .POST p = false := by
    intro p hp
    simp [phaseGate, hp]
  set sPre := runList f (phaseGate g .PRE) x0 g.comps s0 with hsPre
  have hA : ∀ p, phaseOf g p = Phase.PRE → p ∈ g.comps →
      sPre p = denot f g.comps xl p := by
    intro p hp hpc
    refine runList_phase_agree ht hnd hE hdep (phaseGate g .PRE) x0 xl
      ?_ (fun _ => False) (fun q hq => absurd hq not_false) ?_
      g.comps [] s0 rfl
      (fun q _ hq => absurd hq (List.not_mem_nil q))
      (fun q hq => absurd hq not_false) p ?_ hpc
    · intro q hq s
      exact hdv q (phaseOf_PRE_not_dv (of_decide_eq_true hq)) x0 xl s
    · intro q hq _ r hre
      exact Or.inl (decide_eq_true
        (phaseOf_PRE_of_edge hre (of_decide_eq_true hq)))
    · exact decide_eq_true hp
  set sMid := (x0 :: rest).dropLast.foldl
    (fun s x => runList f (phaseGate g .ITER) x g.comps s) sPre with hsMidDef
  have hMidPre : ∀ p, phaseOf g p = Phase.PRE → p ∈ g.comps →
      sMid p = denot f g.comps xl p := by
    intro p hp hpc
    rw [hsMidDef, foldl_runList_nonsel _ _ _ _ _ p (hPreGate p hp)]
    exact hA p hp hpc
  set sIter := runList f (phaseGate g .ITER) xl g.comps sMid with hsIterDef
  have hC : ∀ p, phaseOf g p = Phase.ITER → p ∈ g.comps →
      sIter p = denot f g.comps xl p := by
    intro p hp hpc
    refine runList_phase_agree ht hnd hE hdep (phaseGate g .ITER) xl xl
      (fun _ _ _ => rfl)
      (fun q => q ∈ g.comps ∧ phaseOf g q = Phase.PRE)
      (fun q hq => hPreGate q hq.2) ?_
      g.comps [] sMid rfl
      (fun q _ hq => absurd hq (List.not_mem_nil q))
      (fun q hq => hMidPre q hq.2 hq.1) p (decide_eq_true hp) hpc
    intro q hq _ r hre
    rcases phaseOf_ITER_of_edge hre (of_decide_eq_true hq) with h | h
    · exact Or.inr ⟨hE (r, q) hre, h⟩
    · exact Or.inl (decide_eq_true h)
  set sPost := runList f (phaseGate g .POST) xl g.comps sIter with hsPostDef
  have hIterNonsel : ∀ p, phaseOf g p = Phase.PRE →
      sIter p = sMid p := by
    intro p hp
    rw [hsIterDef, runList_nonsel _ _ _ _ _ p (hPreGate p hp)]
  have hD : ∀ p, phaseOf g p = Phase.POST → p ∈ g.comps →
      sPost p = denot f g.comps xl p := by
    intro p hp hpc
    refine runList_phase_agree ht hnd hE hdep (phaseGate g .POST) xl xl
      (fun _ _ _ => rfl)
      (fun q => q ∈ g.comps ∧
        (phaseOf g q = Phase.PRE ∨ phaseOf g q = Phase.ITER))
      ?_ ?_ g.comps [] sIter rfl
      (fun q _ hq => absurd hq (List.not_mem_nil q))
      ?_ p (decide_eq_true hp) hpc
    · intro q hq
      rcases hq.2 with h | h
      · exact hPrePost q h
      · exact hIterPost q h
    · intro q hq _ r hre
      have hrc : r ∈ g.comps := hE (r, q) hre
      rcases hph : phaseOf g r with _ | _ | _
      · exact Or.inr ⟨hrc, Or.inl hph⟩
      · exact Or.inr ⟨hrc, Or.inr hph⟩
      · exact Or.inl (decide_eq_true hph)
    · intro q hq
      rcases hq.2 with h | h
      · rw [hIterNonsel q h]
        exact hMidPre q h hq.1
      · exact hC q h hq.1
  have hpart : partitionedRun f g g.comps x0 rest s0 c = sPost c := by
    rw [partitionedRun, hsPostDef, hsIterDef, hsMidDef, hsPre]
    rw [foldl_eq_last (List.cons_ne_nil x0 rest)]
  rw [hpart, hbase]
  rcases hph : phaseOf g c with _ | _ | _
  · rw [hsPostDef, runList_nonsel _ _ _ _ _ c (hPrePost c hph),
      hIterNonsel c hph]
    exact hMidPre c hph hc
  · rw [hsPostDef, runList_nonsel _ _ _ _ _ c (hIterPost c hph)]
    exact hC c hph hc
  · exact hD c hph hc

/-- Component semantics for the C1 witness, mirroring the shape of the
ExecComp expressions of `setup_problem` over `Int` (iter2's coefficient 0.5
is replaced by 1 to stay integral; pre1/pre2 read the ambient input 1, and
the design variable `iter1.x3` is the design value `x`). -/
def refF : Nat → Int → (Nat → Int) → Int := fun c x s =>
  match c with
  | 0 => 2
  | 1 => 3
  | 2 => s 0 + 4 * s 1 + x
  | 3 => s 2
  | 4 => 7 * s 2
  | 5 => 6 * s 4
  | 6 => 8 * s 5
  | 7 => 9 * s 0 + 5 * s 3
  | _ => 0

theorem refF_dep : ∀ c x s s',
    (∀ p, (p, c) ∈ refGraph.edges → s p = s' p) → refF c x s = refF c x s' := by
  intro c x s s' h
  match c with
  | 0 => rfl
  | 1 => rfl
  | 2 => simp only [refF]; rw [h 0 (by decide), h 1 (by decide)]
  | 3 => simp only [refF]; rw [h 2 (by decide)]
  | 4 => simp only [refF]; rw [h 2 (by decide)]
  | 5 => simp only [refF]; rw [h 4 (by decide)]
  | 6 => simp only [refF]; rw [h 5 (by decide)]
  | 7 => simp only [refF]; rw [h 0 (by decide), h 3 (by decide)]
  | (n + 8) => rfl

theorem refF_dv : ∀ c, c ∉ refGraph.dvs → ∀ x y s, refF c x s = refF c y s := by
  intro c hc x y s
  match c with
  | 0 => rfl
  | 1 => rfl
  | 2 => exact absurd (by decide : (2 : Nat) ∈ refGraph.dvs) hc
  | 3 => rfl
  | 4 => rfl
  | 5 => rfl
  | 6 => rfl
  | 7 => rfl
  | (n + 8) => rfl

/-- Witness for C1: on the reference model with the concrete trajectory
`[1, 2, 5]`, the partitioned run and the full baseline agree at post2. -/
theorem c1_witness :
    partitionedRun refF refGraph refGraph.comps 1 [2, 5] (fun _ => 0) 7 =
      baselineRun refF refGraph.comps [1, 2, 5] (fun _ => 0) 7 :=
  c1_partitioned_equals_baseline refGraph refF
    ⟨by decide, by decide⟩ (by decide) (by decide) refF_dep refF_dv
    1 [2, 5] (fun _ => 0) 7 (by decide)

/-- Modelled from the spec: the execution trace of one optimization run with
`n` outer iterations under exact analytic derivatives (§4.5) — `RUN_PRE`
executes every PRE component exactly once in plan order, each outer
iteration executes every ITER component once (one value pass), and
`RUN_POST` executes every POST component exactly once at the end. -/
def execTrace (g : CompGraph) (n : Nat) : List Nat :=
  preSet g ++ (List.replicate n (iterSet g)).flatten ++ postSet g

/-- Number of nonlinear solves of component `c` in a run with `n` outer
iterations — the model of the `num_nl_solves` counter of `ExecComp4Test`. -/
def nlSolves (g : CompGraph) (n : Nat) (c : Nat) : Nat :=
  (execTrace g n).count c

theorem count_flatten_replicate (n : Nat) (l : List Nat) (c : Nat) :
    ((List.replicate n l).flatten).count c = n * l.count c := by
  induction n with
  | zero => simp
  | succ n ih =>
    rw [List.replicate_succ, List.flatten_cons, List.count_append, ih,
      Nat.succ_mul]
    omega

/-- C2: in the reference model every PRE and every POST component is
evaluated exactly once per optimization run regardless of the number `n` of
outer iterations, and under exact analytic derivatives every ITER component
is evaluated exactly once per outer iteration; at the `n = 3` outer
iterations observed in `test_pre_post_iter_rev` this yields the asserted
counts 1,1,3,3,3,3,1,1. -/
theorem c2_ref_model_counts (n : Nat) :
    nlSolves refGraph n 0 = 1 ∧ nlSolves refGraph n 1 = 1 ∧
    nlSolves refGraph n 2 = n ∧ nlSolves refGraph n 3 = n ∧
    nlSolves refGraph n 4 = n ∧ nlSolves refGraph n 5 = n ∧
    nlSolves refGraph n 6 = 1 ∧ nlSolves refGraph n 7 = 1 := by
  unfold nlSolves execTrace
  simp only [List.count_append, count_flatten_replicate]
  refine ⟨?_, ?_, ?_, ?_, ?_, ?_, ?_, ?_⟩
  · rw [(by decide : (preSet refGraph).count 0 = 1),
      (by decide : (iterSet refGraph).count 0 = 0),
      (by decide : (postSet refGraph).count 0 = 0)]
    omega
  · rw [(by decide : (preSet refGraph).count 1 = 1),
      (by decide : (iterSet refGraph).count 1 = 0),
      (by decide : (postSet refGraph).count 1 = 0)]
    omega
  · rw [(by decide : (preSet refGraph).count 2 = 0),
      (by decide : (iterSet refGraph).count 2 = 1),
      (by decide : (postSet refGraph).count 2 = 0)]
    omega
  · rw [(by decide : (preSet refGraph).count 3 = 0),
      (by decide : (iterSet refGraph).count 3 = 1),
      (by decide : (postSet refGraph).count 3 = 0)]
    omega
  · rw [(by decide : (preSet refGraph).count 4 = 0),
      (by decide : (iterSet refGraph).count 4 = 1),
      (by decide : (postSet refGraph).count 4 = 0)]
    omega
  · rw [(by decide : (preSet refGraph).count 5 = 0),
      (by decide : (iterSet refGraph).count 5 = 1),
      (by decide : (postSet refGraph).count 5 = 0)]
    omega
  · rw [(by decide : (preSet refGraph).count 6 = 0),
      (by decide : (iterSet refGraph).count 6 = 0),
      (by decide : (postSet refGraph).count 6 = 1)]
    omega
  · rw [(by decide : (preSet refGraph).count 7 = 0),
      (by decide : (iterSet refGraph).count 7 = 0),
      (by decide : (postSet refGraph).count 7 = 1)]
    omega

/-- Expected `num_nl_solves` per component asserted by
`test_pre_post_iter_approx` — approximated total derivatives via
`approx_totals`, uncolored stencil, three outer SLSQP iterations —
transcribed from the test file (lines 316–335). -/
def approxExpectedSolves : Nat → Nat := fun c =>
  match c with
  | 0 => 1
  | 1 => 1
  | 2 => 9
  | 3 => 9
  | 4 => 9
  | 5 => 9
  | 6 => 1
  | 7 => 1
  | _ => 0

/-- Expected `num_nl_solves` per component asserted by
`test_pre_post_iter_approx_coloring` — approximated total derivatives with
`declare_coloring` on the driver — transcribed from the test file
(lines 358–377). -/
def approxColoringExpectedSolves : Nat → Nat := fun c =>
  match c with
  | 0 => 1
  | 1 => 1
  | 2 => 16
  | 3 => 16
  | 4 => 16
  | 5 => 16
  | 6 => 1
  | 7 => 1
  | _ => 0

/-- Counterexample for C3: the claim attributes 9 total evaluations per ITER
component to the case with one coloring group and 3×16 = 48 to the uncolored
finite-difference stencil, but the shipped tests assert 16 evaluations for
iter1 (id 2) when driver coloring is used and 9 — not 48 — with the
uncolored stencil. -/
theorem c3_counterexample :
    approxColoringExpectedSolves 2 ≠ 9 ∧ approxExpectedSolves 2 ≠ 3 * 16 := by
  decide

/-- Modelled from the spec: the execution trace of a run with `n` outer
iterations when the driver requests approximated derivatives — each outer
iteration performs the value `RUN_ITER` pass plus `k` perturbation passes
restricted to the ITER subgraph, while PRE and POST are excluded from
derivative approximation (§4.5). -/
def execTraceApprox (g : CompGraph) (n k : Nat) : List Nat :=
  preSet g ++
    (List.replicate n ((List.replicate (1 + k) (iterSet g)).flatten)).flatten
    ++ postSet g

/-- C3 (amended): in the reference model under approximated total
derivatives, components classified ITER are the ones evaluated 9 times with
the uncolored finite-difference stencil — reproduced by the scheduler model
as 3 outer iterations × (1 value pass + 2 perturbation passes) — and 16
times when driver coloring is enabled (the extra runs compute the coloring
itself); PRE and POST components are evaluated exactly once in both cases. -/
theorem c3_amended_approx_counts :
    ∀ c ∈ refGraph.comps,
      (phaseOf refGraph c = Phase.ITER →
        approxExpectedSolves c = 9 ∧ approxColoringExpectedSolves c = 16) ∧
      (phaseOf refGraph c ≠ Phase.ITER →
        approxExpectedSolves c = 1 ∧ approxColoringExpectedSolves c = 1) ∧
      (execTraceApprox refGraph 3 2).count c = approxExpectedSolves c := by
  decide

/-- Witness for C3 (amended) at iter1 (id 2). -/
theorem c3_witness :
    approxExpectedSolves 2 = 9 ∧ approxColoringExpectedSolves 2 = 16 :=
  (c3_amended_approx_counts 2 (by decide)).1 (by decide)

/-- A subsystem hierarchy: leaf components nested inside groups.  `group`
nests two subhierarchies (n-ary grouping is expressed by nesting); `empty`
is an empty group. -/
inductive SysTree where
  | empty : SysTree
  | leaf (id : Nat) : SysTree
  | group (l r : SysTree) : SysTree

/-- Modelled from the spec: the flattening performed upstream of the
Connection Graph Builder (§4.1) — enumerate the leaf components of the
hierarchy in order, erasing the grouping structure. -/
def flattenTree : SysTree → List Nat
  | .empty => []
  | .leaf i => [i]
  | .group l r => flattenTree l ++ flattenTree r

/-- Modelled from the spec: the connection graph built for a hierarchy — one
node per leaf component together with the resolved connections; the grouping
is flattened away before the graph is built (§4.1). -/
def graphOfTree (t : SysTree) (edges : List (Nat × Nat))
    (dvs resps : List Nat) : CompGraph :=
  { comps := flattenTree t, edges := edges, dvs := dvs, resps := resps }

/-- C4: nesting the same leaf components inside different subsystem
hierarchies changes neither the connection graph, nor the computed
PRE/ITER/POST phase of any component, nor the per-component evaluation
counts: two hierarchies with the same flattened leaf list yield identical
graphs, phases and `nlSolves`. -/
theorem c4_grouping_transparency (t1 t2 : SysTree)
    (h : flattenTree t1 = flattenTree t2) (edges : List (Nat × Nat))
    (dvs resps : List Nat) (n c : Nat) :
    graphOfTree t1 edges dvs resps = graphOfTree t2 edges dvs resps ∧
    phaseOf (graphOfTree t1 edges dvs resps) c =
      phaseOf (graphOfTree t2 edges dvs resps) c ∧
    nlSolves (graphOfTree t1 edges dvs resps) n c =
      nlSolves (graphOfTree t2 edges dvs resps) n c := by
  unfold graphOfTree
  rw [h]
  exact ⟨rfl, rfl, rfl⟩

/-- A chain of groups holding the given leaves in order. -/
def treeOfList : List Nat → SysTree
  | [] => .empty
  | i :: rest => .group (.leaf i) (treeOfList rest)

/-- The ungrouped arrangement of the reference model: all eight components
at the top level. -/
def refTreeFlat : SysTree := treeOfList [0, 1, 2, 3, 4, 5, 6, 7]

/-- The grouped arrangement of `test_pre_post_iter_rev_grouped`:
G1 = pre1, pre2, iter1, iter2 and G2 = iter4, iter3, post1, post2. -/
def refTreeGrouped : SysTree :=
  SysTree.group (treeOfList [0, 1, 2, 3]) (treeOfList [4, 5, 6, 7])

/-- Witness for C4: the grouped and ungrouped arrangements of the reference
model give iter1 (id 2) the same evaluation count over three iterations. -/
theorem c4_witness :
    nlSolves (graphOfTree refTreeGrouped refGraph.edges refGraph.dvs
        refGraph.resps) 3 2 =
      nlSolves (graphOfTree refTreeFlat refGraph.edges refGraph.dvs
        refGraph.resps) 3 2 :=
  (c4_grouping_transparency refTreeGrouped refTreeFlat (by decide)
    refGraph.edges refGraph.dvs refGraph.resps 3 2).2.2

/-- Result of one `iterate` call as reported to the driver (§4.5/§6): the
failure flag and the components actually evaluated during the pass. -/
structure EvaluationResult where
  failed : Bool
  evaluated : List Nat
deriving DecidableEq, Repr

/-- Terminal condition of a run (§4.5): converged or failed. -/
inductive RunOutcome where
  | CONVERGED
  | FAILED
deriving DecidableEq, Repr

/-- Modelled from the spec: one `RUN_ITER` pass (§4.5) — evaluate the ITER
plan in order; a component evaluation failure (`ok c = false`) aborts the
pass and tags the returned `EvaluationResult` as failed.  The pass is a
total function into `EvaluationResult`: the failure is a value handed to the
driver, not a raised error. -/
def runIterPass (ok : Nat → Bool) : List Nat → EvaluationResult
  | [] => { failed := false, evaluated := [] }
  | c :: rest =>
      if ok c then
        { failed := (runIterPass ok rest).failed,
          evaluated := c :: (runIterPass ok rest).evaluated }
      else
        { failed := true, evaluated := [c] }

/-- Modelled from the spec: `finalize` (§4.5) — `RUN_POST` executes the POST
plan exactly once on convergence and is skipped when the run ended in the
`FAILED` state. -/
def finalizePost (outcome : RunOutcome) (postPlan : List Nat) : List Nat :=
  match outcome with
  | .CONVERGED => postPlan
  | .FAILED => []

/-- C7: when a component evaluation fails during a `RUN_ITER` pass — every
component before `c` in the plan succeeds and `c` fails — the scheduler
aborts the pass (the components after `c` are never evaluated) and returns
a failure-tagged `EvaluationResult` to the driver, and `RUN_POST` is skipped
when the run ends `FAILED` while the full POST plan runs on `CONVERGED`. -/
theorem c7_failure_semantics (ok : Nat → Bool) (pre : List Nat) (c : Nat)
    (suf : List Nat) (hpre : ∀ p ∈ pre, ok p = true) (hc : ok c = false)
    (postPlan : List Nat) :
    (runIterPass ok (pre ++ c :: suf)).failed = true ∧
    (runIterPass ok (pre ++ c :: suf)).evaluated = pre ++ [c] ∧
    finalizePost RunOutcome.FAILED postPlan = [] ∧
    finalizePost RunOutcome.CONVERGED postPlan = postPlan := by
  have key : ∀ pre2, (∀ p ∈ pre2, ok p = true) →
      runIterPass ok (pre2 ++ c :: suf) =
        { failed := true, evaluated := pre2 ++ [c] } := by
    intro pre2
    induction pre2 with
    | nil =>
      intro _
      show runIterPass ok (c :: suf) = _
      simp [runIterPass, hc]
    | cons p rest ih =>
      intro hp
      show runIterPass ok (p :: (rest ++ c :: suf)) = _
      simp only [runIterPass]
      rw [if_pos (hp p (List.mem_cons_self p rest)),
        ih (fun q hq => hp q (List.mem_cons_of_mem p hq))]
      simp
  rw [key pre hpre]
  exact ⟨rfl, rfl, rfl, rfl⟩

/-- Witness for C7: the pass over plan `[2, 3, 4, 5]` where component 4
fails — only `[2, 3, 4]` are evaluated, the result is failure-tagged, and
POST is skipped on `FAILED`. -/
theorem c7_witness :
    (runIterPass (fun n => n != 4) ([2, 3] ++ 4 :: [5])).failed = true ∧
    (runIterPass (fun n => n != 4) ([2, 3] ++ 4 :: [5])).evaluated =
      [2, 3] ++ [4] ∧
    finalizePost RunOutcome.FAILED (postSet refGraph) = [] ∧
    finalizePost RunOutcome.CONVERGED (postSet refGraph) =
      postSet refGraph :=
  c7_failure_semantics (fun n => n != 4) [2, 3] 4 [5] (by decide) (by decide)
    (postSet refGraph)

/-- Modelled from the spec: the derivative-packing convention documented in
the `openmdao.math` package docstring for its example `foo(x, y, z) → (a, b)`
with companion `d_foo` — one derivative per (output, argument) pair returned
in row-major order (one row per output, one column per argument), and
passing `d_{arg}=False` replaces every derivative with respect to that
argument by `None`.  The numeric partials are abstract parameters because
the function bodies are not part of the snapshot. -/
def d_foo (partials : Fin 2 → Fin 3 → ℚ) (dx dy dz : Bool) :
    List (Option ℚ) :=
  [if dx then some (partials 0 0) else none,
   if dy then some (partials 0 1) else none,
   if dz then some (partials 0 2) else none,
   if dx then some (partials 1 0) else none,
   if dy then some (partials 1 1) else none,
   if dz then some (partials 1 2) else none]

/-- The `d_{arg}` flag gating column `j` of the jacobian (arguments are
ordered x, y, z). -/
def argFlag (dx dy dz : Bool) (j : Fin 3) : Bool :=
  if j = 0 then dx else if j = 1 then dy else dz

/-- C8: the derivative companion returns its values in row-major order — the
derivative of output `i` with respect to argument `j` sits at index
`i*3 + j` — and whenever an argument's `d_{arg}` flag is `False` every
derivative with respect to that argument is `None` (a `true` flag yields the
partial itself). -/
theorem c8_row_major_and_flags (partials : Fin 2 → Fin 3 → ℚ)
    (dx dy dz : Bool) (i : Fin 2) (j : Fin 3) :
    (d_foo partials dx dy dz).length = 6 ∧
    (d_foo partials dx dy dz).get? (i.val * 3 + j.val) =
      some (if argFlag dx dy dz j then some (partials i j) else none) := by
  refine ⟨rfl, ?_⟩
  fin_cases i <;> fin_cases j <;> simp [d_foo, argFlag]

/-- Modelled from the spec: the `supports` options dictionary of
`NLoptDriver` (driver source not in the snapshot), restricted to the entries
evidenced by the test suite; every entry is read-only after driver
construction. -/
def nloptSupports : List (String × Bool) :=
  [("equality_constraints", true), ("inequality_constraints", true),
   ("two_sided_constraints", true), ("linear_constraints", true),
   ("multiple_objectives", false)]

/-- Modelled from the spec: assigning to a declared entry of the read-only
`supports` dictionary raises
`KeyError("NLoptDriver: Tried to set read-only option '<name>'.")` and
leaves the dictionary untouched; the result carries the (unchanged)
dictionary and the outcome.  Undeclared names are outside the behavior the
tests pin down and are modelled as a no-op success. -/
def setSupportsOption (entries : List (String × Bool)) (name : String)
    (v : Bool) : List (String × Bool) × Except String Unit :=
  if name ∈ entries.map Prod.fst then
    (entries,
      Except.error
        ("NLoptDriver: Tried to set read-only option '" ++ name ++ "'."))
  else
    (entries, Except.ok ())

/-- C9: for every entry of the `NLoptDriver.supports` dictionary, assigning
it after driver construction raises a KeyError with the exact message
`NLoptDriver: Tried to set read-only option '<name>'.` and leaves the stored
option value unchanged. -/
theorem c9_supports_read_only (name : String) (b : Bool)
    (hmem : (name, b) ∈ nloptSupports) (v : Bool) :
    (setSupportsOption nloptSupports name v).2 =
      Except.error
        ("NLoptDriver: Tried to set read-only option '" ++ name ++ "'.") ∧
    (setSupportsOption nloptSupports name v).1 = nloptSupports := by
  unfold setSupportsOption
  rw [if_pos (List.mem_map.2 ⟨(name, b), hmem, rfl⟩)]
  exact ⟨rfl, rfl⟩

/-- Witness for C9 at the entry exercised by `test_driver_supports`. -/
theorem c9_witness :
    (setSupportsOption nloptSupports "equality_constraints" false).2 =
      Except.error
        ("NLoptDriver: Tried to set read-only option '" ++
          "equality_constraints" ++ "'.") ∧
    (setSupportsOption nloptSupports "equality_constraints" false).1 =
      nloptSupports :=
  c9_supports_read_only "equality_constraints" true (by decide) false

/-- Modelled from the driver tests: the optimization problem handed to
`NLoptDriver` — its declared design variables and objectives. -/
structure DriverProblem where
  designVars : List String
  objectives : List String

/-- Modelled from the spec: `run_driver` with the `NLoptDriver` checks that
an objective has been declared before optimizing and raises
`Exception("Driver requires objective to be declared")` otherwise, as
asserted by `test_missing_objective`. -/
def runNloptDriver (p : DriverProblem) : Except String Unit :=
  if p.objectives.isEmpty then
    Except.error "Driver requires objective to be declared"
  else
    Except.ok ()

/-- C10: for every problem with at least one design variable and no declared
objective, running the driver raises an exception whose message is
`Driver requires objective to be declared` instead of silently running the
optimization. -/
theorem c10_missing_objective (p : DriverProblem)
    (hdv : p.designVars ≠ []) (hobj : p.objectives = []) :
    runNloptDriver p =
      Except.error "Driver requires objective to be declared" := by
  unfold runNloptDriver
  rw [if_pos (by simp [hobj])]

/-- Witness for C10: the one-design-variable, zero-objective problem of
`test_missing_objective`. -/
theorem c10_witness :
    runNloptDriver ⟨["x"], []⟩ =
      Except.error "Driver requires objective to be declared" :=
  c10_missing_objective ⟨["x"], []⟩ (by simp) rfl
